import Mathlib

/-!
Shallow embedding of `src/Primeirospassos/passo.py` (class `TradutorCPC`),
a bidirectional translator between Portuguese sentences and formulas of
classical propositional logic.

Modelling conventions:
* Python strings are `List Char`; string literals of the source appear as
  `"...".data`.
* The two mutable fields of the class (`variaveis_proposicionais`, an
  insertion-ordered dict, and `proxima_variavel`) form the structure
  `TradutorCPC`; every method that can mutate `self` threads this state
  explicitly and returns it.
* Propositional variables are modelled by their Unicode code point (a `Nat`):
  Python's `chr`/`ord` pair is injective on the whole code-point range, so
  comparing the one-character variable strings of the source is the same as
  comparing the code points.  `chr(ord(v) + 1)` becomes `v + 1`.  When a
  variable is printed into a formula it is rendered with `Char.ofNat`
  (faithful for every feasible registry, i.e. code points below 0xD800).
* Python `while` loops and the recursion of `nl_para_cpc` are given an
  explicit fuel parameter; a result `none` means the loop/recursion was still
  running when the fuel ran out, `some r` means the source code genuinely
  exits the loop with result `r` (fuel exhaustion is the only source of
  `none`).
* The regular expressions of the source are modelled by a small
  leftmost-match backtracking matcher (`matchSeq`/`searchPat`) whose
  candidate order (greedy: longest first) is exactly the order the Python
  `re` engine explores for these quantifier patterns.
* Character classes: `\s` is modelled by the six ASCII whitespace characters,
  `\w` by the ASCII word characters plus the Latin-1 word characters (the
  exact set CPython's `re` accepts there), and `str.lower` by an
  ASCII + Latin-1 code-point map.  This restricts Python's Unicode tables to
  the Latin-1 subset the program works with.
-/

/-- The six characters of Python's `\s` class (ASCII subset), also the
characters removed by `str.strip()`. -/
def isWs (c : Char) : Bool :=
  c == ' ' || c == '\t' || c == '\n' || c == '\r' ||
  c == Char.ofNat 11 || c == Char.ofNat 12

/-- Python's `\w` class restricted to Latin-1: ASCII alphanumerics and
underscore, plus the Latin-1 word characters exactly as CPython classifies
them: the letters 0xC0-0xFF except the two operators 0xD7 (multiplication)
and 0xF7 (division), and the nine characters 0xAA 0xB2 0xB3 0xB5 0xB9 0xBA
0xBC 0xBD 0xBE.  This covers the accented Portuguese alphabet the program
works with (e.g. a negation target such as "está" is captured whole). -/
def isWordChar (c : Char) : Bool :=
  c.isAlphanum || c == '_' ||
  (decide (0xC0 ≤ c.toNat) && decide (c.toNat ≤ 0xFF) &&
    !(c.toNat == 0xD7) && !(c.toNat == 0xF7)) ||
  [0xAA, 0xB2, 0xB3, 0xB5, 0xB9, 0xBA, 0xBC, 0xBD, 0xBE].contains c.toNat

/-- A character matched by `.` in a Python regex (anything but a newline). -/
def nonNl (c : Char) : Bool :=
  !(c == '\n')

/-- `str.lower()` restricted to ASCII and the Latin-1 letters (covers every
character the program manipulates). -/
def pyToLower (c : Char) : Char :=
  if 'A' ≤ c ∧ c ≤ 'Z' then Char.ofNat (c.toNat + 32)
  else if 0xC0 ≤ c.toNat ∧ c.toNat ≤ 0xDE ∧ c.toNat ≠ 0xD7 then Char.ofNat (c.toNat + 32)
  else c

/-- `str.lower()` on a whole string. -/
def toLowerL (l : List Char) : List Char :=
  l.map pyToLower

/-- `str.strip()`: drop whitespace from both ends. -/
def trimWs (l : List Char) : List Char :=
  ((l.dropWhile isWs).reverse.dropWhile isWs).reverse

/-- `str.replace(pat, rep)` (all non-overlapping occurrences, left to right),
with an explicit step counter; the counter `n` never runs out when it starts
at the length of the list, because every step consumes at least one
character. -/
def replaceAllGo (pat rep : List Char) : Nat → List Char → List Char
  | 0, l => l
  | _ + 1, [] => []
  | n + 1, c :: resto =>
    if pat.isPrefixOf (c :: resto) then
      rep ++ replaceAllGo pat rep n ((c :: resto).drop pat.length)
    else
      c :: replaceAllGo pat rep n resto

/-- `str.replace(pat, rep)`.  Every call site of the source passes a
non-empty pattern; the guard for the empty pattern only keeps the function
total. -/
def replaceAll (pat rep l : List Char) : List Char :=
  if pat.isEmpty then l else replaceAllGo pat rep l.length l

/-- Lookup in an insertion-ordered association list; Python dict keys are
unique, so first-match lookup is dict lookup. -/
def lookupKey : List (List Char × Nat) → List Char → Option Nat
  | [], _ => none
  | (k, v) :: resto, chave => if k = chave then some v else lookupKey resto chave

/-- The state of one translator instance (`__init__`, lines 4-6):
the proposition → variable dict (in insertion order) and the code point of
the next variable to allocate. -/
structure TradutorCPC where
  variaveis_proposicionais : List (List Char × Nat)
  proxima_variavel : Nat
deriving DecidableEq, Repr

/-- A freshly constructed translator: empty dict, next variable `'A'` (65). -/
def tradutorInicial : TradutorCPC :=
  ⟨[], 65⟩

/-- The normalization applied by `obter_variavel`:
`proposicao.strip().lower()`. -/
def normKey (p : List Char) : List Char :=
  toLowerL (trimWs p)

/-- `obter_variavel` (lines 37-45): normalize, look up, allocate the next
code point when absent (storing the mapping), and return the variable. -/
def obter_variavel (st : TradutorCPC) (proposicao : List Char) : Nat × TradutorCPC :=
  let pl := normKey proposicao
  match lookupKey st.variaveis_proposicionais pl with
  | some v => (v, st)
  | none =>
    (st.proxima_variavel,
      ⟨st.variaveis_proposicionais ++ [(pl, st.proxima_variavel)],
        st.proxima_variavel + 1⟩)

/-- Run a whole sequence of `obter_variavel` calls, keeping the final state. -/
def registrar_lista (st : TradutorCPC) : List (List Char) → TradutorCPC
  | [] => st
  | p :: ps => registrar_lista (obter_variavel st p).2 ps

/-- The variables returned by a sequence of `obter_variavel` calls, in call
order. -/
def resultados (st : TradutorCPC) : List (List Char) → List Nat
  | [] => []
  | p :: ps => (obter_variavel st p).1 :: resultados (obter_variavel st p).2 ps

/-- The one-character string Python stores for the variable with code point
`v`. -/
def varStr (v : Nat) : List Char :=
  [Char.ofNat v]

/-- The atoms of the regex patterns of `padroes_nl` (lines 29-35):
a literal, `\s+`, a capture group `(.+)`, a capture group `(\w+)`. -/
inductive Pat where
  | lit : List Char → Pat
  | ws : Pat
  | dotG : Pat
  | wordG : Pat
deriving DecidableEq

/-- Which atoms are capture groups. -/
def isCapture : Pat → Bool
  | .dotG => true
  | .wordG => true
  | _ => false

/-- The splits a greedy `+` quantifier over the class `pred` explores at the
current position, in exploration order: the non-empty prefixes of the maximal
`pred`-run, longest first, each with the remaining suffix. -/
def splitsDesc (pred : Char → Bool) (l : List Char) : List (List Char × List Char) :=
  (List.range (l.takeWhile pred).length).map
    (fun i => (l.take ((l.takeWhile pred).length - i), l.drop ((l.takeWhile pred).length - i)))

/-- The consumption candidates of one atom at the current position, in the
order the backtracking engine tries them. -/
def candidates : Pat → List Char → List (List Char × List Char)
  | .lit s, l => if s.isPrefixOf l then [(s, l.drop s.length)] else []
  | .ws, l => splitsDesc isWs l
  | .dotG, l => splitsDesc nonNl l
  | .wordG, l => splitsDesc isWordChar l

/-- Anchored match of a pattern sequence at the current position, returning
the captured groups of the first (leftmost-greedy) way the atoms can consume
a prefix.  This is the backtracking order of the `re` engine for these
patterns. -/
def matchSeq : List Pat → List Char → Option (List (List Char))
  | [], _ => some []
  | p :: ps, l =>
    (candidates p l).findSome? (fun sr =>
      match matchSeq ps sr.2 with
      | some gs => some (if isCapture p then sr.1 :: gs else gs)
      | none => none)

/-- `re.search`: try the anchored match at every start position, left to
right. -/
def searchPat (ps : List Pat) : List Char → Option (List (List Char))
  | [] => matchSeq ps []
  | c :: resto =>
    match matchSeq ps (c :: resto) with
    | some gs => some gs
    | none => searchPat ps resto

/-- Number of capture groups of a pattern. -/
def countCaptures (ps : List Pat) : Nat :=
  (ps.filter (fun p => isCapture p)).length

/-- `re.search` for a one-group pattern. -/
def search1 (ps : List Pat) (l : List Char) : Option (List Char) :=
  match searchPat ps l with
  | some [g] => some g
  | _ => none

/-- `re.search` for a two-group pattern. -/
def search2 (ps : List Pat) (l : List Char) : Option (List Char × List Char) :=
  match searchPat ps l with
  | some [g1, g2] => some (g1, g2)
  | _ => none

/-- Pattern `r'não\s+(\w+)'` (line 30). -/
def patNeg : List Pat :=
  [.lit "não".data, .ws, .wordG]

/-- Pattern `r'se\s+(.+)\s+então\s+(.+)'` (line 31). -/
def patImp : List Pat :=
  [.lit "se".data, .ws, .dotG, .ws, .lit "então".data, .ws, .dotG]

/-- Pattern `r'(.+)\s+e\s+(.+)'` (line 32). -/
def patConj : List Pat :=
  [.dotG, .ws, .lit "e".data, .ws, .dotG]

/-- Pattern `r'(.+)\s+ou\s+(.+)'` (line 33). -/
def patDisj : List Pat :=
  [.dotG, .ws, .lit "ou".data, .ws, .dotG]

/-- Pattern `r'(.+)\s+se e somente se\s+(.+)'` (line 34). -/
def patBic : List Pat :=
  [.dotG, .ws, .lit "se e somente se".data, .ws, .dotG]

/-- Drop one final `.`/`!`/`?`: `re.sub(r'[.!?]$', '', sentenca)` applied to
an already-stripped string (line 53). -/
def stripFinalPunct (l : List Char) : List Char :=
  match l.getLast? with
  | some c => if c = '.' ∨ c = '!' ∨ c = '?' then l.dropLast else l
  | none => l

/-- The sentence normalization of `nl_para_cpc` (lines 50-53):
`sentenca.lower().strip()` then removal of one final punctuation mark. -/
def normalizeSent (l : List Char) : List Char :=
  stripFinalPunct (trimWs (toLowerL l))

/-- `_processar_negacao` (lines 88-91): register the matched word and return
`¬Var`. -/
def processar_negacao (st : TradutorCPC) (g : List Char) : Option (List Char) × TradutorCPC :=
  let r := obter_variavel st g
  (some ('¬' :: varStr r.1), r.2)

/-- The shared shape of `_processar_implicacao` / `_processar_conjuncao` /
`_processar_disjuncao` / `_processar_bicondicional` (lines 93-111): translate
the left side, then the right side (the f-string evaluates left to right),
and build `"( <left> <symbol> <right> )"`.  `r1` is the finished left
translation, `k` runs the right translation from the state the left one
produced; fuel exhaustion (`none`) in either side is propagated. -/
def montar_binaria (simbolo : Char)
    (r1 : Option (List Char) × TradutorCPC)
    (k : TradutorCPC → Option (List Char) × TradutorCPC) :
    Option (List Char) × TradutorCPC :=
  match r1 with
  | (none, st1) => (none, st1)
  | (some f1, st1) =>
    match k st1 with
    | (none, st2) => (none, st2)
    | (some f2, st2) =>
      (some ('(' :: f1 ++ ' ' :: simbolo :: ' ' :: f2 ++ [')']), st2)

/-- `nl_para_cpc` (lines 47-62): normalize, try the five patterns of
`padroes_nl` in their fixed order, dispatch to the matching processor
(recursing on the captured groups), and fall back to registering the whole
normalized sentence as one atomic proposition.  The fuel bounds the recursion
depth; no modelled operation raises, so the `try`/`except` of the source is
the identity here. -/
def nl_para_cpc : Nat → TradutorCPC → List Char → Option (List Char) × TradutorCPC
  | 0, st, _ => (none, st)
  | fuel + 1, st, sentenca =>
    let sn := normalizeSent sentenca
    match search1 patNeg sn with
    | some g => processar_negacao st g
    | none =>
      match search2 patImp sn with
      | some (g1, g2) =>
        montar_binaria '→' (nl_para_cpc fuel st g1) (fun st1 => nl_para_cpc fuel st1 g2)
      | none =>
        match search2 patConj sn with
        | some (g1, g2) =>
          montar_binaria '∧' (nl_para_cpc fuel st g1) (fun st1 => nl_para_cpc fuel st1 g2)
        | none =>
          match search2 patDisj sn with
          | some (g1, g2) =>
            montar_binaria '∨' (nl_para_cpc fuel st g1) (fun st1 => nl_para_cpc fuel st1 g2)
          | none =>
            match search2 patBic sn with
            | some (g1, g2) =>
              montar_binaria '↔' (nl_para_cpc fuel st g1) (fun st1 => nl_para_cpc fuel st1 g2)
            | none =>
              let r := obter_variavel st sn
              (some (varStr r.1), r.2)

/-- The character class `[^¬→↔∧∨]` of `_processar_operadores` (line 129). -/
def nonOp (c : Char) : Bool :=
  !(c == '¬' || c == '→' || c == '↔' || c == '∧' || c == '∨')

/-- Anchored match of `([^¬→↔∧∨]+)op([^¬→↔∧∨]+)` at the current position:
the greedy first group must be the whole maximal `nonOp` run (a shorter run
would put a `nonOp` character where `op` is required), then `op`, then a
non-empty maximal `nonOp` run. -/
def matchOperAt (op : Char) (l : List Char) : Option (List Char × List Char) :=
  let g1 := l.takeWhile nonOp
  if g1.isEmpty then none
  else
    match l.drop g1.length with
    | [] => none
    | c :: resto =>
      if c = op then
        let g2 := resto.takeWhile nonOp
        if g2.isEmpty then none else some (g1, g2)
      else none

/-- `re.search` for the operator pattern: leftmost start position first. -/
def searchOper (op : Char) : List Char → Option (List Char × List Char)
  | [] => none
  | c :: resto =>
    match matchOperAt op (c :: resto) with
    | some r => some r
    | none => searchOper op resto

/-- The `conectivos_cpc_para_nl` dict (lines 20-26).  A key outside the five
symbols would be a `KeyError` in the source; no call site produces one (the
operator lists of lines 77-81 and 120 are literal), so the `[]` default is
unreachable. -/
def conectivos_cpc_para_nl (op : Char) : List Char :=
  if op = '∧' then "e".data
  else if op = '∨' then "ou".data
  else if op = '¬' then "não".data
  else if op = '→' then "implica".data
  else if op = '↔' then "se e somente se".data
  else []

/-- The `conectivos_nl_para_cpc` dict (lines 9-18).  It is defined by
`__init__` but never read by any method; kept for completeness. -/
def conectivos_nl_para_cpc (frase : List Char) : Option Char :=
  if frase = "e".data then some '∧'
  else if frase = "ou".data then some '∨'
  else if frase = "não".data then some '¬'
  else if frase = "se".data then some '→'
  else if frase = "se e somente se".data then some '↔'
  else if frase = "então".data then some '→'
  else if frase = "implica".data then some '→'
  else if frase = "equivale".data then some '↔'
  else none

/-- The scan of `_obter_proposicao` (lines 157-162): first dict entry whose
variable equals the stripped token, else the stripped token itself. -/
def obter_proposicao_busca : List (List Char × Nat) → List Char → List Char
  | [], v => v
  | (prop, var) :: resto, v =>
    if varStr var = v then prop else obter_proposicao_busca resto v

/-- `_obter_proposicao` (lines 157-162); reads `self` and leaves it
unchanged. -/
def obter_proposicao (st : TradutorCPC) (variavel : List Char) :
    List Char × TradutorCPC :=
  (obter_proposicao_busca st.variaveis_proposicionais (trimWs variavel), st)

/-- `_traduzir_variaveis` (lines 151-155): replace every occurrence of each
stored variable by its proposition, in dict insertion order; reads `self`
and leaves it unchanged. -/
def traduzir_variaveis (st : TradutorCPC) (formula : List Char) :
    List Char × TradutorCPC :=
  (st.variaveis_proposicionais.foldl
    (fun f kv => replaceAll (varStr kv.2) kv.1 f) formula, st)

/-- The inner `while True` of `_processar_operadores` (lines 131-147) for one
operator: search the pattern, rewrite the whole match (replacing every
occurrence of the matched text, as `str.replace` does) and repeat until the
pattern no longer matches. -/
def processar_operadores_loop (op : Char) :
    Nat → TradutorCPC → List Char → Option (List Char) × TradutorCPC
  | 0, st, _ => (none, st)
  | fuel + 1, st, formula =>
    match searchOper op formula with
    | none => (some formula, st)
    | some (g1, g2) =>
      let esquerda := trimWs g1
      let direita := trimWs g2
      let r :=
        if op = '¬' then
          let pr := obter_proposicao st direita
          ("não ".data ++ pr.1, pr.2)
        else
          let pe := obter_proposicao st esquerda
          let pd := obter_proposicao pe.2 direita
          (pe.1 ++ ' ' :: conectivos_cpc_para_nl op ++ ' ' :: pd.1, pd.2)
      processar_operadores_loop op fuel r.2 (replaceAll (g1 ++ op :: g2) r.1 formula)

/-- `_processar_operadores` (lines 126-149): the outer `for operador in
operadores` loop, running the rewrite loop for each operator in turn. -/
def processar_operadores (fuel : Nat) :
    TradutorCPC → List Char → List Char → Option (List Char) × TradutorCPC
  | st, formula, [] => (some formula, st)
  | st, formula, op :: ops =>
    match processar_operadores_loop op fuel st formula with
    | (none, st1) => (none, st1)
    | (some f1, st1) => processar_operadores fuel st1 f1 ops

/-- Anchored match of `\(([^()]+)\)` (line 115) at the current position: an
opening parenthesis, a non-empty maximal run without parentheses, a closing
parenthesis (a shorter run cannot help, its successor is never `)`). -/
def matchParenAt : List Char → Option (List Char)
  | '(' :: resto =>
    let interna := resto.takeWhile (fun c => !(c == '(' || c == ')'))
    if interna.isEmpty then none
    else
      match resto.drop interna.length with
      | ')' :: _ => some interna
      | _ => none
  | _ => none

/-- `re.search(r'\(([^()]+)\)', formula)`: leftmost innermost group. -/
def searchParenGroup : List Char → Option (List Char)
  | [] => none
  | c :: resto =>
    match matchParenAt (c :: resto) with
    | some r => some r
    | none => searchParenGroup resto

/-- `_processar_parenteses` (lines 113-124): if an innermost group matches,
resolve its operators, substitute the variables, and replace every occurrence
of the whole group (`str.replace`); otherwise return the formula unchanged. -/
def processar_parenteses (fuel : Nat) (st : TradutorCPC) (formula : List Char) :
    Option (List Char) × TradutorCPC :=
  match searchParenGroup formula with
  | none => (some formula, st)
  | some interna =>
    match processar_operadores fuel st interna ['↔', '→', '∨', '∧', '¬'] with
    | (none, st1) => (none, st1)
    | (some t1, st1) =>
      let t2 := traduzir_variaveis st1 t1
      (some (replaceAll ('(' :: interna ++ [')']) t2.1 formula), t2.2)

/-- The `while '(' in formula` loop of `cpc_para_nl` (lines 73-74). -/
def processar_parenteses_loop :
    Nat → TradutorCPC → List Char → Option (List Char) × TradutorCPC
  | 0, st, formula =>
    if formula.contains '(' then (none, st) else (some formula, st)
  | fuel + 1, st, formula =>
    if formula.contains '(' then
      match processar_parenteses fuel st formula with
      | (none, st1) => (none, st1)
      | (some f1, st1) => processar_parenteses_loop fuel st1 f1
    else (some formula, st)

/-- `cpc_para_nl` (lines 67-86): remove spaces, resolve parenthesized groups
until none remain, resolve the operators in the fixed order ↔ → ∨ ∧ ¬, and
substitute the variables.  No modelled operation raises, so the
`try`/`except` of the source is the identity here. -/
def cpc_para_nl (fuel : Nat) (st : TradutorCPC) (formula : List Char) :
    Option (List Char) × TradutorCPC :=
  let f0 := formula.filter (fun c => !(c == ' '))
  match processar_parenteses_loop fuel st f0 with
  | (none, st1) => (none, st1)
  | (some f1, st1) =>
    match processar_operadores fuel st1 f1 ['↔'] with
    | (none, st2) => (none, st2)
    | (some f2, st2) =>
      match processar_operadores fuel st2 f2 ['→'] with
      | (none, st3) => (none, st3)
      | (some f3, st3) =>
        match processar_operadores fuel st3 f3 ['∨'] with
        | (none, st4) => (none, st4)
        | (some f4, st4) =>
          match processar_operadores fuel st4 f4 ['∧'] with
          | (none, st5) => (none, st5)
          | (some f5, st5) =>
            match processar_operadores fuel st5 f5 ['¬'] with
            | (none, st6) => (none, st6)
            | (some f6, st6) =>
              let t := traduzir_variaveis st6 f6
              (some t.1, t.2)

/-- The registry of the C2 scenario: exactly `{"chove" ↦ A, "faz frio" ↦ B}`
with the next variable being `C`. -/
def tradutorSemeado : TradutorCPC :=
  ⟨[("chove".data, 65), ("faz frio".data, 66)], 67⟩

/-- A segment a single pattern atom can consume: the literal itself, or a
non-empty run inside the atom's character class. -/
def Fits : Pat → List Char → Prop
  | .lit s, seg => seg = s
  | .ws, seg => seg ≠ [] ∧ ∀ c ∈ seg, isWs c = true
  | .dotG, seg => seg ≠ [] ∧ ∀ c ∈ seg, nonNl c = true
  | .wordG, seg => seg ≠ [] ∧ ∀ c ∈ seg, isWordChar c = true

/-- A string begins with segments the atoms of the pattern can consume in
order (a sufficient condition for the anchored match to succeed). -/
def FitsSeq : List Pat → List Char → Prop
  | [], _ => True
  | p :: ps, l => ∃ seg resto, l = seg ++ resto ∧ Fits p seg ∧ FitsSeq ps resto

/-- Invariant of every reachable registry: the cursor is 65 plus the number
of stored mappings, and the i-th stored mapping (in insertion order) holds
variable `65 + i`. -/
def RegInv (st : TradutorCPC) : Prop :=
  st.proxima_variavel = 65 + st.variaveis_proposicionais.length ∧
  ∀ i, i < st.variaveis_proposicionais.length →
    (st.variaveis_proposicionais.getD i ([], 0)).2 = 65 + i

theorem findSome_isSome_of_mem {α β : Type _} {f : α → Option β} {l : List α} {a : α}
    (ha : a ∈ l) (hf : (f a).isSome) : (l.findSome? f).isSome := by
  induction l with
  | nil => cases ha
  | cons b t ih =>
    cases hb : f b with
    | some v => simp [List.findSome?_cons, hb]
    | none =>
      rcases List.mem_cons.mp ha with h | h
      · rw [h] at hf; rw [hb] at hf; simp at hf
      · simpa [List.findSome?_cons, hb] using ih h

theorem exists_mem_of_findSome_eq_some {α β : Type _} {f : α → Option β} :
    ∀ {l : List α} {b : β}, l.findSome? f = some b → ∃ a ∈ l, f a = some b := by
  intro l
  induction l with
  | nil => intro b h; simp [List.findSome?] at h
  | cons c t ih =>
    intro b h
    rw [List.findSome?_cons] at h
    cases hc : f c with
    | some v =>
      rw [hc] at h
      simp at h
      exact ⟨c, by simp, by rw [hc, h]⟩
    | none =>
      rw [hc] at h
      simp at h
      obtain ⟨a, ha, hfa⟩ := ih h
      exact ⟨a, by simp [ha], hfa⟩

theorem takeWhile_append_all {p : Char → Bool} {a : List Char} (b : List Char)
    (ha : ∀ c ∈ a, p c = true) : (a ++ b).takeWhile p = a ++ b.takeWhile p := by
  induction a with
  | nil => simp
  | cons c t ih =>
    have hc : p c = true := ha c (by simp)
    have ht : ∀ x ∈ t, p x = true := fun x hx => ha x (by simp [hx])
    simp [List.takeWhile_cons, hc, ih ht]

theorem isPrefixOf_append (a b : List Char) : a.isPrefixOf (a ++ b) = true := by
  induction a with
  | nil => simp [List.isPrefixOf]
  | cons c t ih => simp [List.isPrefixOf, ih]

theorem mem_splitsDesc {pred : Char → Bool} {l : List Char} {k : Nat}
    (h1 : 1 ≤ k) (h2 : k ≤ (l.takeWhile pred).length) :
    (l.take k, l.drop k) ∈ splitsDesc pred l := by
  unfold splitsDesc
  refine List.mem_map.mpr ⟨(l.takeWhile pred).length - k, List.mem_range.mpr (by omega), ?_⟩
  have h3 : (l.takeWhile pred).length - ((l.takeWhile pred).length - k) = k := by omega
  rw [h3]

theorem matchSeq_fits : ∀ (ps : List Pat) (l : List Char),
    FitsSeq ps l → (matchSeq ps l).isSome := by
  intro ps
  induction ps with
  | nil => intro l _; simp [matchSeq]
  | cons p ps ih =>
    intro l hf
    obtain ⟨seg, resto, hl, hfit, hrest⟩ := hf
    obtain ⟨gs, hgs⟩ := Option.isSome_iff_exists.mp (ih resto hrest)
    subst hl
    have hmem : (seg, resto) ∈ candidates p (seg ++ resto) := by
      cases p with
      | lit s =>
        have hseg : seg = s := hfit
        subst hseg
        simp [candidates, isPrefixOf_append, List.drop_left]
      | ws =>
        have hne : seg ≠ [] := hfit.1
        have hall : ∀ c ∈ seg, isWs c = true := hfit.2
        have h1 : 1 ≤ seg.length := List.length_pos.mpr hne
        have h2 : seg.length ≤ ((seg ++ resto).takeWhile isWs).length := by
          rw [takeWhile_append_all resto hall]
          simp
        have := mem_splitsDesc h1 h2
        rw [List.take_left, List.drop_left] at this
        simpa [candidates] using this
      | dotG =>
        have hne : seg ≠ [] := hfit.1
        have hall : ∀ c ∈ seg, nonNl c = true := hfit.2
        have h1 : 1 ≤ seg.length := List.length_pos.mpr hne
        have h2 : seg.length ≤ ((seg ++ resto).takeWhile nonNl).length := by
          rw [takeWhile_append_all resto hall]
          simp
        have := mem_splitsDesc h1 h2
        rw [List.take_left, List.drop_left] at this
        simpa [candidates] using this
      | wordG =>
        have hne : seg ≠ [] := hfit.1
        have hall : ∀ c ∈ seg, isWordChar c = true := hfit.2
        have h1 : 1 ≤ seg.length := List.length_pos.mpr hne
        have h2 : seg.length ≤ ((seg ++ resto).takeWhile isWordChar).length := by
          rw [takeWhile_append_all resto hall]
          simp
        have := mem_splitsDesc h1 h2
        rw [List.take_left, List.drop_left] at this
        simpa [candidates] using this
    rw [matchSeq]
    refine findSome_isSome_of_mem hmem ?_
    simp [hgs]

theorem matchSeq_isSome_searchPat {ps : List Pat} :
    ∀ l, (matchSeq ps l).isSome → (searchPat ps l).isSome := by
  intro l
  cases l with
  | nil => intro h; simpa [searchPat] using h
  | cons c resto =>
    intro h
    obtain ⟨gs, hgs⟩ := Option.isSome_iff_exists.mp h
    simp [searchPat, hgs]

theorem searchPat_fits (ps : List Pat) :
    ∀ (pre l : List Char), FitsSeq ps l → (searchPat ps (pre ++ l)).isSome := by
  intro pre
  induction pre with
  | nil => intro l hf; exact matchSeq_isSome_searchPat l (matchSeq_fits ps l hf)
  | cons c t ih =>
    intro l hf
    cases hm : matchSeq ps (c :: (t ++ l)) with
    | some gs => simp [searchPat, hm]
    | none => simpa [searchPat, hm] using ih l hf

theorem matchSeq_length : ∀ (ps : List Pat) {l : List Char} {gs : List (List Char)},
    matchSeq ps l = some gs → gs.length = countCaptures ps := by
  intro ps
  induction ps with
  | nil =>
    intro l gs h
    rw [matchSeq] at h
    injection h with h
    simp [← h, countCaptures]
  | cons p ps ih =>
    intro l gs h
    rw [matchSeq] at h
    obtain ⟨sr, _, hfa⟩ := exists_mem_of_findSome_eq_some h
    cases hm : matchSeq ps sr.2 with
    | none => rw [hm] at hfa; simp at hfa
    | some gs2 =>
      rw [hm] at hfa
      have hlen := ih hm
      simp [countCaptures] at hlen
      cases hcap : isCapture p with
      | true =>
        rw [hcap] at hfa
        simp at hfa
        rw [← hfa]
        simp [countCaptures, List.filter_cons, hcap]
        omega
      | false =>
        rw [hcap] at hfa
        simp at hfa
        rw [← hfa]
        simp [countCaptures, List.filter_cons, hcap]
        exact hlen

theorem searchPat_length (ps : List Pat) :
    ∀ {l : List Char} {gs : List (List Char)},
    searchPat ps l = some gs → gs.length = countCaptures ps := by
  intro l
  induction l with
  | nil =>
    intro gs h
    rw [searchPat] at h
    exact matchSeq_length ps h
  | cons c resto ih =>
    intro gs h
    rw [searchPat] at h
    cases hm : matchSeq ps (c :: resto) with
    | some gs2 =>
      rw [hm] at h
      simp at h
      rw [← h]
      exact matchSeq_length ps hm
    | none =>
      rw [hm] at h
      exact ih h

theorem search1_isSome_of_fits {ps : List Pat} (hc : countCaptures ps = 1)
    (pre : List Char) {l : List Char} (hf : FitsSeq ps l) :
    ∃ g, search1 ps (pre ++ l) = some g := by
  obtain ⟨gs, hgs⟩ := Option.isSome_iff_exists.mp (searchPat_fits ps pre l hf)
  have hlen := searchPat_length ps hgs
  rw [hc] at hlen
  match gs, hlen with
  | [g], _ => exact ⟨g, by simp [search1, hgs]⟩

theorem search2_isSome_of_fits {ps : List Pat} (hc : countCaptures ps = 2)
    (pre : List Char) {l : List Char} (hf : FitsSeq ps l) :
    ∃ g1 g2, search2 ps (pre ++ l) = some (g1, g2) := by
  obtain ⟨gs, hgs⟩ := Option.isSome_iff_exists.mp (searchPat_fits ps pre l hf)
  have hlen := searchPat_length ps hgs
  rw [hc] at hlen
  match gs, hlen with
  | [g1, g2], _ => exact ⟨g1, g2, by simp [search2, hgs]⟩

theorem lookupKey_append_of_some {l : List (List Char × Nat)} {k : List Char} {v : Nat}
    (t : List (List Char × Nat)) (h : lookupKey l k = some v) :
    lookupKey (l ++ t) k = some v := by
  induction l with
  | nil => simp [lookupKey] at h
  | cons kv resto ih =>
    obtain ⟨k1, v1⟩ := kv
    rw [lookupKey] at h
    rw [List.cons_append, lookupKey]
    by_cases hk : k1 = k
    · simpa [hk] using h
    · rw [if_neg hk] at h ⊢
      exact ih h

theorem lookupKey_append_self {l : List (List Char × Nat)} {k : List Char}
    (v : Nat) (h : lookupKey l k = none) :
    lookupKey (l ++ [(k, v)]) k = some v := by
  induction l with
  | nil => simp [lookupKey]
  | cons kv resto ih =>
    obtain ⟨k1, v1⟩ := kv
    rw [lookupKey] at h
    rw [List.cons_append, lookupKey]
    by_cases hk : k1 = k
    · rw [if_pos hk] at h; cases h
    · rw [if_neg hk] at h ⊢
      exact ih h

theorem lookupKey_mem {l : List (List Char × Nat)} {k : List Char} {v : Nat}
    (h : lookupKey l k = some v) : (k, v) ∈ l := by
  induction l with
  | nil => simp [lookupKey] at h
  | cons kv resto ih =>
    obtain ⟨k1, v1⟩ := kv
    rw [lookupKey] at h
    by_cases hk : k1 = k
    · rw [if_pos hk] at h
      injection h with h
      rw [← hk, ← h]
      exact List.mem_cons_self _ _
    · rw [if_neg hk] at h
      exact List.mem_cons_of_mem _ (ih h)

theorem mem_exists_getD {l : List (List Char × Nat)} {kv : List Char × Nat}
    (h : kv ∈ l) : ∃ i, i < l.length ∧ l.getD i ([], 0) = kv := by
  induction l with
  | nil => cases h
  | cons a t ih =>
    rcases List.mem_cons.mp h with h1 | h1
    · exact ⟨0, by simp, by simp [h1]⟩
    · obtain ⟨i, hi, hg⟩ := ih h1
      exact ⟨i + 1, by simp; omega, by rw [List.getD_cons_succ]; exact hg⟩

theorem getD_append_length {α : Type _} (l : List α) (x d : α) :
    (l ++ [x]).getD l.length d = x := by
  induction l with
  | nil => simp
  | cons a t ih =>
    rw [List.cons_append, List.length_cons, List.getD_cons_succ]
    exact ih

/-- After a call of `obter_variavel`, the normalized key is recorded in the
resulting state with exactly the returned variable. -/
theorem obter_variavel_registra (st : TradutorCPC) (p : List Char) :
    lookupKey (obter_variavel st p).2.variaveis_proposicionais (normKey p) =
      some (obter_variavel st p).1 := by
  rw [obter_variavel]
  cases h : lookupKey st.variaveis_proposicionais (normKey p) with
  | some v => simpa using h
  | none => simpa using lookupKey_append_self st.proxima_variavel h

/-- `obter_variavel` only ever appends to the dict. -/
theorem obter_variavel_extensao (st : TradutorCPC) (p : List Char) :
    ∃ t, (obter_variavel st p).2.variaveis_proposicionais =
      st.variaveis_proposicionais ++ t := by
  rw [obter_variavel]
  cases h : lookupKey st.variaveis_proposicionais (normKey p) with
  | some v => exact ⟨[], by simp⟩
  | none => exact ⟨[(normKey p, st.proxima_variavel)], by simp⟩

/-- A whole sequence of `obter_variavel` calls only ever appends to the
dict. -/
theorem registrar_lista_extensao :
    ∀ (ps : List (List Char)) (st : TradutorCPC),
    ∃ t, (registrar_lista st ps).variaveis_proposicionais =
      st.variaveis_proposicionais ++ t := by
  intro ps
  induction ps with
  | nil => intro st; exact ⟨[], by simp [registrar_lista]⟩
  | cons p resto ih =>
    intro st
    obtain ⟨t1, ht1⟩ := obter_variavel_extensao st p
    obtain ⟨t2, ht2⟩ := ih (obter_variavel st p).2
    exact ⟨t1 ++ t2, by rw [registrar_lista, ht2, ht1, List.append_assoc]⟩

/-- Recorded keys stay recorded with the same variable across any further
calls. -/
theorem lookupKey_estavel {st : TradutorCPC} {k : List Char} {v : Nat}
    (ps : List (List Char))
    (h : lookupKey st.variaveis_proposicionais k = some v) :
    lookupKey (registrar_lista st ps).variaveis_proposicionais k = some v := by
  obtain ⟨t, ht⟩ := registrar_lista_extensao ps st
  rw [ht]
  exact lookupKey_append_of_some t h

/-- Every result of a sequence of `obter_variavel` calls is recorded in the
final state under the normalized key of the corresponding input. -/
theorem resultado_lookup_final :
    ∀ (ps : List (List Char)) (st : TradutorCPC) (i : Nat), i < ps.length →
    lookupKey (registrar_lista st ps).variaveis_proposicionais
        (normKey (ps.getD i [])) =
      some ((resultados st ps).getD i 0) := by
  intro ps
  induction ps with
  | nil => intro st i hi; simp at hi
  | cons p resto ih =>
    intro st i hi
    cases i with
    | zero =>
      simp only [List.getD_cons_zero, registrar_lista, resultados]
      exact lookupKey_estavel resto (obter_variavel_registra st p)
    | succ j =>
      simp only [List.getD_cons_succ, registrar_lista, resultados]
      exact ih (obter_variavel st p).2 j (by simpa using hi)

theorem reginv_inicial : RegInv tradutorInicial := by
  constructor
  · rfl
  · intro i hi
    simp [tradutorInicial] at hi

theorem reginv_obter {st : TradutorCPC} (h : RegInv st) (p : List Char) :
    RegInv (obter_variavel st p).2 := by
  obtain ⟨hprox, hpos⟩ := h
  rw [obter_variavel]
  cases hl : lookupKey st.variaveis_proposicionais (normKey p) with
  | some v => exact ⟨hprox, hpos⟩
  | none =>
    constructor
    · simp only [List.length_append, List.length_cons, List.length_nil]
      omega
    intro i hi
    simp only [List.length_append, List.length_cons, List.length_nil] at hi
    by_cases hcase : i < st.variaveis_proposicionais.length
    · rw [List.getD_append _ _ _ _ hcase]
      exact hpos i hcase
    · have hieq : i = st.variaveis_proposicionais.length := by omega
      subst hieq
      rw [getD_append_length]
      simpa using hprox

theorem reginv_registrar :
    ∀ (ps : List (List Char)) {st : TradutorCPC}, RegInv st →
    RegInv (registrar_lista st ps) := by
  intro ps
  induction ps with
  | nil => intro st h; simpa [registrar_lista] using h
  | cons p resto ih =>
    intro st h
    rw [registrar_lista]
    exact ih (reginv_obter h p)

/-- In a state satisfying the invariant, no variable is shared by two keys. -/
theorem valores_injetivos {st : TradutorCPC} (h : RegInv st)
    {k1 k2 : List Char} {v : Nat}
    (h1 : lookupKey st.variaveis_proposicionais k1 = some v)
    (h2 : lookupKey st.variaveis_proposicionais k2 = some v) : k1 = k2 := by
  obtain ⟨i1, hi1, hg1⟩ := mem_exists_getD (lookupKey_mem h1)
  obtain ⟨i2, hi2, hg2⟩ := mem_exists_getD (lookupKey_mem h2)
  have hv1 : (st.variaveis_proposicionais.getD i1 ([], 0)).2 = 65 + i1 := h.2 i1 hi1
  have hv2 : (st.variaveis_proposicionais.getD i2 ([], 0)).2 = 65 + i2 := h.2 i2 hi2
  rw [hg1] at hv1
  rw [hg2] at hv2
  have : i1 = i2 := by simp at hv1 hv2; omega
  subst this
  rw [hg1] at hg2
  have := congrArg Prod.fst hg2
  simpa using this

theorem registrar_lista_append (st : TradutorCPC) :
    ∀ (ps qs : List (List Char)),
    registrar_lista st (ps ++ qs) = registrar_lista (registrar_lista st ps) qs := by
  intro ps
  induction ps generalizing st with
  | nil => intro qs; simp [registrar_lista]
  | cons p resto ih =>
    intro qs
    rw [List.cons_append, registrar_lista, registrar_lista]
    exact ih (obter_variavel st p).2 qs

/-- C1: registry bijection.  For every sequence of `obter_variavel` calls on
one fresh registry instance, the variables returned at call positions `i` and
`j` are equal if and only if the two proposition texts are equal after
normalization (strip and lower-case); in particular distinct normalized texts
always receive distinct variables and re-registering the same text (any
casing/whitespace) returns the variable previously assigned. -/
theorem C1_bijecao_registro (ps : List (List Char)) (i j : Nat)
    (hi : i < ps.length) (hj : j < ps.length) :
    (resultados tradutorInicial ps).getD i 0 =
      (resultados tradutorInicial ps).getD j 0 ↔
    normKey (ps.getD i []) = normKey (ps.getD j []) := by
  have li := resultado_lookup_final ps tradutorInicial i hi
  have lj := resultado_lookup_final ps tradutorInicial j hj
  constructor
  · intro h
    rw [h] at li
    exact valores_injetivos (reginv_registrar ps reginv_inicial) li lj
  · intro h
    rw [h] at li
    rw [li] at lj
    injection lj

/-- Witness for C1: the concrete call sequence
`["Chove ", "chove", "faz frio"]` with positions 0 and 1 — the first two
texts normalize identically and indeed receive the same variable. -/
theorem C1_bijecao_registro_testemunha :
    0 < (["Chove ".data, "chove".data, "faz frio".data] : List (List Char)).length ∧
    1 < (["Chove ".data, "chove".data, "faz frio".data] : List (List Char)).length ∧
    ((resultados tradutorInicial
        ["Chove ".data, "chove".data, "faz frio".data]).getD 0 0 =
      (resultados tradutorInicial
        ["Chove ".data, "chove".data, "faz frio".data]).getD 1 0 ↔
     normKey ((["Chove ".data, "chove".data, "faz frio".data] :
        List (List Char)).getD 0 []) =
      normKey ((["Chove ".data, "chove".data, "faz frio".data] :
        List (List Char)).getD 1 [])) :=
  ⟨by decide, by decide,
    C1_bijecao_registro ["Chove ".data, "chove".data, "faz frio".data] 0 1
      (by decide) (by decide)⟩

/-- C8: allocation order is monotonic.  After any call sequence on a fresh
registry, the i-th stored mapping (in insertion order) holds the variable
with code point `65 + i` — so the first three distinct propositions receive
A, B, C (65, 66, 67), allocated by code-point increments — and any further
calls only append to the stored mappings: a mapping is never reassigned. -/
theorem C8_ordem_alocacao (ps qs : List (List Char)) (i : Nat)
    (hi : i < (registrar_lista tradutorInicial ps).variaveis_proposicionais.length) :
    ((registrar_lista tradutorInicial ps).variaveis_proposicionais.getD
        i ([], 0)).2 = 65 + i ∧
    ∃ t, (registrar_lista tradutorInicial (ps ++ qs)).variaveis_proposicionais =
      (registrar_lista tradutorInicial ps).variaveis_proposicionais ++ t := by
  constructor
  · exact (reginv_registrar ps reginv_inicial).2 i hi
  · rw [registrar_lista_append]
    exact registrar_lista_extensao qs _

/-- Witness for C8: registering `chove`, `FAZ Frio `, `chove` (again) and
`neva` stores three distinct propositions; the third (index 2) holds
code point 67 = 'C', and a later call only appends. -/
theorem C8_ordem_alocacao_testemunha :
    2 < (registrar_lista tradutorInicial
        ["chove".data, "FAZ Frio ".data, "chove".data, "neva".data]).variaveis_proposicionais.length ∧
    (((registrar_lista tradutorInicial
        ["chove".data, "FAZ Frio ".data, "chove".data, "neva".data]).variaveis_proposicionais.getD
          2 ([], 0)).2 = 65 + 2 ∧
     ∃ t, (registrar_lista tradutorInicial
        (["chove".data, "FAZ Frio ".data, "chove".data, "neva".data] ++
          ["granizo".data])).variaveis_proposicionais =
       (registrar_lista tradutorInicial
        ["chove".data, "FAZ Frio ".data, "chove".data, "neva".data]).variaveis_proposicionais ++ t) :=
  ⟨by decide,
    C8_ordem_alocacao ["chove".data, "FAZ Frio ".data, "chove".data, "neva".data]
      ["granizo".data] 2 (by decide)⟩

/-- C9: on a fresh translator, `nl_para_cpc "Chove."` normalizes the sentence
(lower-case, strip, drop the final `.`), no connective pattern matches, and
the result is the single fresh variable `A`, now mapped to `chove`. -/
theorem C9_atomica_exemplo :
    normalizeSent "Chove.".data = "chove".data ∧
    nl_para_cpc 1 tradutorInicial "Chove.".data =
      (some "A".data, ⟨[("chove".data, 65)], 66⟩) := by
  constructor
  · decide
  · decide

/-- C7: on a fresh translator, `nl_para_cpc "chove e faz frio"` returns
`"(A ∧ B)"`, with `chove ↦ A` and `faz frio ↦ B` allocated left to right. -/
theorem C7_conjuncao_exemplo :
    nl_para_cpc 2 tradutorInicial "chove e faz frio".data =
      (some "(A ∧ B)".data,
        ⟨[("chove".data, 65), ("faz frio".data, 66)], 67⟩) := by
  decide

/-- C2 (counterexample): with the registry pre-seeded with
`{A ↦ "chove", B ↦ "faz frio"}`, `cpc_para_nl "¬A"` does *not* return
`"não chove"`: the operator pattern `([^¬→↔∧∨]+)¬([^¬→↔∧∨]+)` requires a
non-empty operand *before* `¬`, so the bare negation never matches and the
formula reaches variable substitution as `¬A`.  (Fuel 8 is more than the
loops consume; the `some` result certifies that every loop genuinely
exited.) -/
theorem C2_contraexemplo :
    (cpc_para_nl 8 tradutorSemeado "¬A".data).1 ≠ some "não chove".data := by
  decide

/-- C2 (amended): with the pre-seeded registry,
`cpc_para_nl "(A ∧ B)"` returns `"chove e faz frio"`, and
`cpc_para_nl "¬A"` returns `"¬chove"` — the `¬` is left unrewritten (its
regex requires a left operand) and `_traduzir_variaveis` then replaces the
`A`. -/
theorem C2_corrigido :
    (cpc_para_nl 8 tradutorSemeado "(A ∧ B)".data).1 = some "chove e faz frio".data ∧
    (cpc_para_nl 8 tradutorSemeado "¬A".data).1 = some "¬chove".data := by
  constructor
  · decide
  · decide

/-- One pass of `_processar_parenteses` over `"(A"` finds no group and is the
identity, for every registry state and any fuel. -/
theorem processar_parenteses_fixo_em_aberto (fuel : Nat) (st : TradutorCPC) :
    processar_parenteses fuel st "(A".data = (some "(A".data, st) := by
  have h : searchParenGroup "(A".data = none := by decide
  rw [processar_parenteses, h]

/-- C3: the parenthesis-resolution loop of `cpc_para_nl` does NOT terminate
on the unmatched input `"(A"`: the pattern `\(([^()]+)\)` finds no group, so
`_processar_parenteses` returns the formula unchanged while the loop guard
`'(' in formula` stays true — for every fuel bound the fueled loop is still
running (`none`), i.e. the Python `while` loop runs forever instead of
exiting with the parenthesis left in the output as the specification
claims. -/
theorem C3_divergencia_parentese (fuel : Nat) (st : TradutorCPC) :
    (cpc_para_nl fuel st "(A".data).1 = none := by
  have hloop : ∀ (n : Nat) (st1 : TradutorCPC),
      processar_parenteses_loop n st1 "(A".data = (none, st1) := by
    intro n
    induction n with
    | zero =>
      intro st1
      rw [processar_parenteses_loop]
      simp
    | succ m ih =>
      intro st1
      rw [processar_parenteses_loop]
      rw [if_pos (by decide)]
      rw [processar_parenteses_fixo_em_aberto]
      exact ih st1
  show (cpc_para_nl fuel st ['(', 'A']).1 = none
  rw [cpc_para_nl]
  have hfiltro : (['(', 'A'] : List Char).filter (fun c => !(c == ' ')) = ['(', 'A'] := by
    decide
  simp only [hfiltro]
  rw [hloop fuel st]

theorem obter_proposicao_estado (st : TradutorCPC) (v : List Char) :
    (obter_proposicao st v).2 = st := rfl

theorem traduzir_variaveis_estado (st : TradutorCPC) (f : List Char) :
    (traduzir_variaveis st f).2 = st := rfl

theorem processar_operadores_loop_estado (op : Char) :
    ∀ (fuel : Nat) (st : TradutorCPC) (f : List Char),
    (processar_operadores_loop op fuel st f).2 = st := by
  intro fuel
  induction fuel with
  | zero => intro st f; rfl
  | succ n ih =>
    intro st f
    rw [processar_operadores_loop]
    cases hs : searchOper op f with
    | none => rfl
    | some g =>
      obtain ⟨g1, g2⟩ := g
      simp only
      by_cases hop : op = '¬'
      · rw [if_pos hop]
        exact ih _ _
      · rw [if_neg hop]
        exact ih _ _

theorem processar_operadores_estado (fuel : Nat) :
    ∀ (ops : List Char) (st : TradutorCPC) (f : List Char),
    (processar_operadores fuel st f ops).2 = st := by
  intro ops
  induction ops with
  | nil => intro st f; rfl
  | cons op resto ih =>
    intro st f
    rw [processar_operadores]
    cases hl : processar_operadores_loop op fuel st f with
    | mk o st1 =>
      have he : st1 = st := by
        have := processar_operadores_loop_estado op fuel st f
        rw [hl] at this
        exact this
      cases o with
      | none => simpa using he
      | some f1 => simpa [ih] using he

theorem processar_parenteses_estado (fuel : Nat) (st : TradutorCPC) (f : List Char) :
    (processar_parenteses fuel st f).2 = st := by
  rw [processar_parenteses]
  cases hs : searchParenGroup f with
  | none => rfl
  | some interna =>
    simp only
    cases hp : processar_operadores fuel st interna ['↔', '→', '∨', '∧', '¬'] with
    | mk o st1 =>
      have he : st1 = st := by
        have := processar_operadores_estado fuel ['↔', '→', '∨', '∧', '¬'] st interna
        rw [hp] at this
        exact this
      cases o with
      | none => simpa using he
      | some t1 => simpa [traduzir_variaveis_estado] using he

theorem processar_parenteses_loop_estado :
    ∀ (fuel : Nat) (st : TradutorCPC) (f : List Char),
    (processar_parenteses_loop fuel st f).2 = st := by
  intro fuel
  induction fuel with
  | zero =>
    intro st f
    rw [processar_parenteses_loop]
    by_cases h : f.contains '('
    · rw [if_pos h]
    · rw [if_neg h]
  | succ n ih =>
    intro st f
    rw [processar_parenteses_loop]
    by_cases h : f.contains '('
    · rw [if_pos h]
      cases hp : processar_parenteses n st f with
      | mk o st1 =>
        have he : st1 = st := by
          have := processar_parenteses_estado n st f
          rw [hp] at this
          exact this
        cases o with
        | none => simpa using he
        | some f1 => simpa [ih] using he
    · rw [if_neg h]

/-- C10: `cpc_para_nl` never modifies the registry — for every fuel, state
and input formula the translator state coming out of the call is exactly the
state that went in (every helper on the CPC→NL path only reads the mapping;
only `nl_para_cpc` / `obter_variavel` can grow it). -/
theorem C10_cpc_preserva_registro (fuel : Nat) (st : TradutorCPC) (f : List Char) :
    (cpc_para_nl fuel st f).2 = st := by
  rw [cpc_para_nl]
  simp only
  cases h1 : processar_parenteses_loop fuel st (f.filter (fun c => !(c == ' '))) with
  | mk o1 st1 =>
    have he1 : st1 = st := by
      have := processar_parenteses_loop_estado fuel st (f.filter (fun c => !(c == ' ')))
      rw [h1] at this
      exact this
    cases o1 with
    | none => simpa using he1
    | some f1 =>
      simp only
      cases h2 : processar_operadores fuel st1 f1 ['↔'] with
      | mk o2 st2 =>
        have he2 : st2 = st1 := by
          have := processar_operadores_estado fuel ['↔'] st1 f1
          rw [h2] at this
          exact this
        cases o2 with
        | none => simp [he2, he1]
        | some f2 =>
          simp only
          cases h3 : processar_operadores fuel st2 f2 ['→'] with
          | mk o3 st3 =>
            have he3 : st3 = st2 := by
              have := processar_operadores_estado fuel ['→'] st2 f2
              rw [h3] at this
              exact this
            cases o3 with
            | none => simp [he3, he2, he1]
            | some f3 =>
              simp only
              cases h4 : processar_operadores fuel st3 f3 ['∨'] with
              | mk o4 st4 =>
                have he4 : st4 = st3 := by
                  have := processar_operadores_estado fuel ['∨'] st3 f3
                  rw [h4] at this
                  exact this
                cases o4 with
                | none => simp [he4, he3, he2, he1]
                | some f4 =>
                  simp only
                  cases h5 : processar_operadores fuel st4 f4 ['∧'] with
                  | mk o5 st5 =>
                    have he5 : st5 = st4 := by
                      have := processar_operadores_estado fuel ['∧'] st4 f4
                      rw [h5] at this
                      exact this
                    cases o5 with
                    | none => simp [he5, he4, he3, he2, he1]
                    | some f5 =>
                      simp only
                      cases h6 : processar_operadores fuel st5 f5 ['¬'] with
                      | mk o6 st6 =>
                        have he6 : st6 = st5 := by
                          have := processar_operadores_estado fuel ['¬'] st5 f5
                          rw [h6] at this
                          exact this
                        cases o6 with
                        | none => simp [he6, he5, he4, he3, he2, he1]
                        | some f6 =>
                          simp [traduzir_variaveis_estado, he6, he5, he4, he3, he2, he1]

/-- C5: the negation pattern is tried first and searched anywhere in the
sentence.  Whenever the normalized sentence contains `"não"` followed by
whitespace and a word, `nl_para_cpc` returns exactly `¬V` where `V` is the
variable obtained for the single word captured by `não\s+(\w+)` — all
remaining text of the sentence is discarded (e.g. `"se não chove então faz
sol"` becomes the negation of `"chove"` alone, not an implication). -/
theorem C5_negacao_prioridade (fuel : Nat) (st : TradutorCPC) (s : List Char)
    (h : ∃ pre ws w suf,
      normalizeSent s = pre ++ "não".data ++ ws ++ w ++ suf ∧
      ws ≠ [] ∧ (∀ c ∈ ws, isWs c = true) ∧
      w ≠ [] ∧ (∀ c ∈ w, isWordChar c = true)) :
    ∃ g, search1 patNeg (normalizeSent s) = some g ∧
      nl_para_cpc (fuel + 1) st s =
        (some ('¬' :: varStr (obter_variavel st g).1), (obter_variavel st g).2) := by
  obtain ⟨pre, ws, w, suf, hsn, hws_ne, hws, hw_ne, hword⟩ := h
  have hsn2 : normalizeSent s = pre ++ ("não".data ++ (ws ++ (w ++ suf))) := by
    rw [hsn]
    simp [List.append_assoc]
  have hfits : FitsSeq patNeg ("não".data ++ (ws ++ (w ++ suf))) :=
    ⟨"não".data, ws ++ (w ++ suf), rfl, rfl,
      ⟨ws, w ++ suf, rfl, ⟨hws_ne, hws⟩,
        ⟨w, suf, rfl, ⟨hw_ne, hword⟩, trivial⟩⟩⟩
  have hsome := search1_isSome_of_fits (by decide) pre hfits
  rw [← hsn2] at hsome
  obtain ⟨g, hg⟩ := hsome
  refine ⟨g, hg, ?_⟩
  rw [nl_para_cpc]
  simp only [hg]
  rfl

/-- Witness for C5: `"se não chove então faz sol"` contains `"não chove"`,
so the whole sentence translates to a bare negation, the implication text
being discarded. -/
theorem C5_negacao_prioridade_testemunha :
    (∃ pre ws w suf,
      normalizeSent "se não chove então faz sol".data =
        pre ++ "não".data ++ ws ++ w ++ suf ∧
      ws ≠ [] ∧ (∀ c ∈ ws, isWs c = true) ∧
      w ≠ [] ∧ (∀ c ∈ w, isWordChar c = true)) ∧
    (∃ g, search1 patNeg
        (normalizeSent "se não chove então faz sol".data) = some g ∧
      nl_para_cpc 1 tradutorInicial "se não chove então faz sol".data =
        (some ('¬' :: varStr (obter_variavel tradutorInicial g).1),
          (obter_variavel tradutorInicial g).2)) :=
  ⟨⟨"se ".data, [' '], "chove".data, " então faz sol".data,
     by decide, by decide, by decide, by decide, by decide⟩,
   C5_negacao_prioridade 0 tradutorInicial "se não chove então faz sol".data
     ⟨"se ".data, [' '], "chove".data, " então faz sol".data,
      by decide, by decide, by decide, by decide, by decide⟩⟩

/-- C4: pattern precedence is the fixed order negation, implication,
conjunction, disjunction, biconditional.  Every normalized sentence that
contains the phrase `"se e somente se"` (and hence the token `"e"`) while
matching neither the negation nor the implication pattern is dispatched to
the conjunction branch — not the biconditional branch: the conjunction
pattern necessarily matches inside the phrase itself. -/
theorem C4_conjuncao_prioridade (fuel : Nat) (st : TradutorCPC) (s : List Char)
    (hneg : search1 patNeg (normalizeSent s) = none)
    (himp : search2 patImp (normalizeSent s) = none)
    (hfrase : ∃ pre suf,
      normalizeSent s = pre ++ "se e somente se".data ++ suf) :
    ∃ g1 g2, search2 patConj (normalizeSent s) = some (g1, g2) ∧
      nl_para_cpc (fuel + 1) st s =
        montar_binaria '∧' (nl_para_cpc fuel st g1)
          (fun st1 => nl_para_cpc fuel st1 g2) := by
  obtain ⟨pre, suf, hsn⟩ := hfrase
  have hsplit : "se e somente se".data =
      "se".data ++ ([' '] ++ ("e".data ++ ([' '] ++ "somente se".data))) := by decide
  have hsn2 : normalizeSent s =
      pre ++ ("se".data ++ ([' '] ++ ("e".data ++ ([' '] ++ ("somente se".data ++ suf))))) := by
    rw [hsn, hsplit]
    simp [List.append_assoc]
  have hfits : FitsSeq patConj
      ("se".data ++ ([' '] ++ ("e".data ++ ([' '] ++ ("somente se".data ++ suf))))) :=
    ⟨"se".data, [' '] ++ ("e".data ++ ([' '] ++ ("somente se".data ++ suf))), rfl,
      ⟨by decide, by decide⟩,
      ⟨[' '], "e".data ++ ([' '] ++ ("somente se".data ++ suf)), rfl,
        ⟨by decide, by decide⟩,
        ⟨"e".data, [' '] ++ ("somente se".data ++ suf), rfl, rfl,
          ⟨[' '], "somente se".data ++ suf, rfl, ⟨by decide, by decide⟩,
            ⟨"somente se".data, suf, rfl, ⟨by decide, by decide⟩, trivial⟩⟩⟩⟩⟩
  have hsome := search2_isSome_of_fits (by decide) pre hfits
  rw [← hsn2] at hsome
  obtain ⟨g1, g2, hg⟩ := hsome
  refine ⟨g1, g2, hg, ?_⟩
  rw [nl_para_cpc]
  simp only [hneg, himp, hg]

/-- Witness for C4: `"chove se e somente se faz frio"` matches neither
negation nor implication, contains the biconditional phrase, and is
dispatched to the conjunction branch. -/
theorem C4_conjuncao_prioridade_testemunha :
    (search1 patNeg (normalizeSent "chove se e somente se faz frio".data) = none ∧
     search2 patImp (normalizeSent "chove se e somente se faz frio".data) = none ∧
     ∃ pre suf, normalizeSent "chove se e somente se faz frio".data =
       pre ++ "se e somente se".data ++ suf) ∧
    ∃ g1 g2, search2 patConj
        (normalizeSent "chove se e somente se faz frio".data) = some (g1, g2) ∧
      nl_para_cpc 2 tradutorInicial "chove se e somente se faz frio".data =
        montar_binaria '∧' (nl_para_cpc 1 tradutorInicial g1)
          (fun st1 => nl_para_cpc 1 st1 g2) :=
  ⟨⟨by decide, by decide, ⟨"chove ".data, " faz frio".data, by decide⟩⟩,
   C4_conjuncao_prioridade 1 tradutorInicial "chove se e somente se faz frio".data
     (by decide) (by decide) ⟨"chove ".data, " faz frio".data, by decide⟩⟩
